import Mathlib

/-!
Shallow embedding of the kerrokantasi excerpt:
  - democracy/views/section.py (section/image/poll serializers and viewsets)
  - kk/models/section.py, kk/models/scenario.py (legacy models)

Machine integers are modelled as Int/Nat (no overflow is relevant here),
Python strings as List Char where character-level reasoning is needed,
fallible code as Except, and the relational store as explicit record lists
threaded through the operations.
-/

namespace Kerrokantasi

/-! ### Python primitives used by the code -/

/-- Python `s.split(sep)` for a single-character separator: splits at every
occurrence of `sep`, keeping empty parts; always returns at least one part. -/
def pySplit (sep : Char) : List Char → List (List Char)
  | [] => [[]]
  | c :: rest =>
    if c = sep then [] :: pySplit sep rest
    else
      match pySplit sep rest with
      | [] => [[c]]
      | p :: ps => (c :: p) :: ps

/-- Decimal value of a digit list, most significant first. -/
def digitsVal (l : List Char) : Nat :=
  l.foldl (fun acc c => acc * 10 + (c.toNat - '0'.toNat)) 0

/-- Python `str.strip()`: drop leading and trailing whitespace. -/
def pyStrip (l : List Char) : List Char :=
  ((l.dropWhile Char.isWhitespace).reverse.dropWhile Char.isWhitespace).reverse

/-- Nonempty all-digit string to Nat, else failure. -/
def pyNatParse (l : List Char) : Option Nat :=
  if l ≠ [] ∧ l.all Char.isDigit then some (digitsVal l) else none

/-- Python `int(s)` for base 10: strip whitespace, optional sign, digits
(the rarely used underscore separators and non-ASCII digits are not modelled). -/
def pyIntParse (l : List Char) : Option Int :=
  match pyStrip l with
  | [] => none
  | c :: rest =>
    if c = '+' then (pyNatParse rest).map Int.ofNat
    else if c = '-' then (pyNatParse rest).map (fun n => -(n : Int))
    else (pyNatParse (c :: rest)).map Int.ofNat

/-! ### ThumbnailImageSerializer._parse_dimension_string -/

def dimFormatMsg : String := "\"dim\" must be <width>x<height>"

def dimPositiveMsg : String := "width and height must be positive integers"

/-- `ThumbnailImageSerializer._parse_dimension_string`: split on the literal
`x`; exactly two parts required, else ValueError with `dimFormatMsg`; parse
both parts as integers, forcing BOTH to 0 if either fails; then both must be
strictly positive, else ValueError with `dimPositiveMsg`. -/
def parseDimensionString (dim : List Char) : Except String (Int × Int) :=
  match pySplit 'x' dim with
  | [ws, hs] =>
    let wh : Int × Int :=
      match pyIntParse ws, pyIntParse hs with
      | some wi, some hi => (wi, hi)
      | _, _ => (0, 0)
    if 0 < wh.1 ∧ 0 < wh.2 then .ok wh else .error dimPositiveMsg
  | _ => .error dimFormatMsg

example : parseDimensionString "640x480".toList = .ok (640, 480) := rfl
example : parseDimensionString "640".toList = .error dimFormatMsg := rfl
example : parseDimensionString "640x480x10".toList = .error dimFormatMsg := rfl
example : parseDimensionString "0x480".toList = .error dimPositiveMsg := rfl
example : parseDimensionString "-1x10".toList = .error dimPositiveMsg := rfl
example : parseDimensionString "abcxdef".toList = .error dimPositiveMsg := rfl

/-! ### Character and list lemmas -/

lemma isDigit_ne_x {c : Char} (h : c.isDigit = true) : c ≠ 'x' := by
  rintro rfl; exact absurd h (by decide)

lemma isDigit_ne_plus {c : Char} (h : c.isDigit = true) : c ≠ '+' := by
  rintro rfl; exact absurd h (by decide)

lemma isDigit_ne_minus {c : Char} (h : c.isDigit = true) : c ≠ '-' := by
  rintro rfl; exact absurd h (by decide)

lemma isDigit_not_ws {c : Char} (h : c.isDigit = true) : c.isWhitespace = false := by
  by_contra hw
  rw [Bool.not_eq_false] at hw
  simp only [Char.isWhitespace, Bool.or_eq_true, decide_eq_true_eq] at hw
  rcases hw with ((rfl | rfl) | rfl) | rfl <;> exact absurd h (by decide)

lemma dropWhile_eq_self {p : Char → Bool} {l : List Char} (h : ∀ c ∈ l, p c = false) :
    l.dropWhile p = l := by
  cases l with
  | nil => rfl
  | cons c rest => simp [List.dropWhile, h c (List.mem_cons_self _ _)]

lemma pyStrip_eq_self {l : List Char} (h : ∀ c ∈ l, c.isWhitespace = false) : pyStrip l = l := by
  unfold pyStrip
  rw [dropWhile_eq_self h,
      dropWhile_eq_self (fun c hc => h c (List.mem_reverse.mp hc)), List.reverse_reverse]

lemma pyIntParse_digits {l : List Char} (hne : l ≠ []) (hd : l.all Char.isDigit = true) :
    pyIntParse l = some (Int.ofNat (digitsVal l)) := by
  have hall := List.all_eq_true.mp hd
  have hws : ∀ c ∈ l, c.isWhitespace = false := fun c hc => isDigit_not_ws (hall c hc)
  cases l with
  | nil => exact absurd rfl hne
  | cons c rest =>
    have hcd : c.isDigit = true := hall c (List.mem_cons_self _ _)
    unfold pyIntParse
    rw [pyStrip_eq_self hws]
    simp [isDigit_ne_plus hcd, isDigit_ne_minus hcd, pyNatParse, hd]

lemma pySplit_sepFree {sep : Char} {l : List Char} (h : sep ∉ l) : pySplit sep l = [l] := by
  induction l with
  | nil => rfl
  | cons c rest ih =>
    have hc : c ≠ sep := by rintro rfl; exact h (List.mem_cons_self _ _)
    have hr : sep ∉ rest := fun hm => h (List.mem_cons_of_mem _ hm)
    simp [pySplit, hc, ih hr]

lemma pySplit_append {sep : Char} {l₁ l₂ : List Char} (h : sep ∉ l₁) :
    pySplit sep (l₁ ++ sep :: l₂) = l₁ :: pySplit sep l₂ := by
  induction l₁ with
  | nil => simp [pySplit]
  | cons c rest ih =>
    have hc : c ≠ sep := by rintro rfl; exact h (List.mem_cons_self _ _)
    have hr : sep ∉ rest := fun hm => h (List.mem_cons_of_mem _ hm)
    simp only [List.cons_append, pySplit, if_neg hc]
    rw [List.append_eq, ih hr]

/-- C4. `_parse_dimension_string`: wrong part count fails with the format
message; a non-integer part forces both dimensions to 0 and hence the
positivity failure; non-positive parsed values fail with the positivity
message; and any well-formed `<w>x<h>` with positive integers returns
exactly `(w, h)`. -/
theorem c4_parse_dimension_string :
    (∀ dim : List Char, (pySplit 'x' dim).length ≠ 2 →
        parseDimensionString dim = .error dimFormatMsg)
  ∧ (∀ dim a b : List Char, pySplit 'x' dim = [a, b] →
        (pyIntParse a = none ∨ pyIntParse b = none) →
        parseDimensionString dim = .error dimPositiveMsg)
  ∧ (∀ dim a b : List Char, ∀ wi hi : Int, pySplit 'x' dim = [a, b] →
        pyIntParse a = some wi → pyIntParse b = some hi → ¬(0 < wi ∧ 0 < hi) →
        parseDimensionString dim = .error dimPositiveMsg)
  ∧ (∀ dw dh : List Char, ∀ w h : Nat,
        dw ≠ [] → dw.all Char.isDigit = true → dh ≠ [] → dh.all Char.isDigit = true →
        digitsVal dw = w → digitsVal dh = h → 0 < w → 0 < h →
        parseDimensionString (dw ++ 'x' :: dh) = .ok ((w : Int), (h : Int))) := by
  refine ⟨?_, ?_, ?_, ?_⟩
  · intro dim hlen
    unfold parseDimensionString
    rcases hm : pySplit 'x' dim with _ | ⟨a, _ | ⟨b, _ | _⟩⟩ <;>
      first
        | rfl
        | (exact absurd (by rw [hm]; rfl) hlen)
  · intro dim a b hm hab
    unfold parseDimensionString
    rw [hm]
    rcases hab with ha | hb
    · rcases hpb : pyIntParse b with _ | hi <;> simp [ha, hpb]
    · rcases hpa : pyIntParse a with _ | wi <;> simp [hpa, hb]
  · intro dim a b wi hi hm hpa hpb hpos
    unfold parseDimensionString
    rw [hm]
    simp [hpa, hpb, hpos]
  · intro dw dh w h hdwne hdwd hdhne hdhd hvw hvh hw hh
    have hx : 'x' ∉ dw := fun hm => absurd ((List.all_eq_true.mp hdwd) 'x' hm) (by decide)
    unfold parseDimensionString
    rw [pySplit_append hx, pySplit_sepFree
          (fun hm => absurd ((List.all_eq_true.mp hdhd) 'x' hm) (by decide))]
    have h1 := pyIntParse_digits hdwne hdwd
    have h2 := pyIntParse_digits hdhne hdhd
    rw [hvw] at h1
    rw [hvh] at h2
    simp [h1, h2, hw, hh]

/-- Witness for C4 at concrete inputs: `"640"` fails the format check,
`"abcxdef"` and `"0x480"` fail positivity, and `"640x480"` parses to
`(640, 480)`. -/
theorem c4_parse_dimension_string_witness :
    parseDimensionString "640".toList = .error dimFormatMsg ∧
    parseDimensionString "abcxdef".toList = .error dimPositiveMsg ∧
    parseDimensionString "0x480".toList = .error dimPositiveMsg ∧
    parseDimensionString ("640".toList ++ 'x' :: "480".toList) = .ok (640, 480) := by
  refine ⟨?_, ?_, ?_, ?_⟩
  · exact c4_parse_dimension_string.1 _ (by decide)
  · exact c4_parse_dimension_string.2.1 _ "abc".toList "def".toList (by decide)
      (Or.inl (by decide))
  · exact c4_parse_dimension_string.2.2.1 _ "0".toList "480".toList 0 480 (by decide)
      (by decide) (by decide) (by decide)
  · exact c4_parse_dimension_string.2.2.2 "640".toList "480".toList 640 480 (by decide)
      (by decide) (by decide) (by decide) (by decide) (by decide) (by decide) (by decide)

/-! ### kk/models/section.py: legacy Section.save auto-ordering -/

structure KkSection where
  pk : Option Nat
  hearing_id : Option Nat
  ordering : Int

/-- Python `max(seq or [0])`: the maximum of the sequence, falling back to
`[0]` when the sequence is empty. -/
def pyMaxOrZero : List Int → Int
  | [] => 0
  | a :: as => as.foldl max a

/-- Legacy `Section.save`: on an initial save (`pk` unset) with a falsy
`ordering` (the integer default 0) and an associated hearing, the ordering is
derived as `max(sibling orderings or [0]) + 1`; otherwise the record is saved
unchanged. `siblingOrderings` are the orderings of the hearing's current
sections. -/
def kkSectionSave (siblingOrderings : List Int) (s : KkSection) : KkSection :=
  if s.pk = none ∧ s.ordering = 0 ∧ s.hearing_id ≠ none then
    { s with ordering := pyMaxOrZero siblingOrderings + 1 }
  else s

/-- C8. Legacy section ordering is auto-assigned exactly on the first save
with no explicit ordering and a hearing attached, as
`max(sibling orderings, default [0]) + 1`; in particular the first three
sections of a hearing created in order get 1, 2, 3, while an explicit
ordering (e.g. 10) is kept untouched. -/
theorem c8_legacy_section_auto_ordering :
    (∀ (sib : List Int) (s : KkSection),
        s.pk = none → s.ordering = 0 → s.hearing_id ≠ none →
        (kkSectionSave sib s).ordering = pyMaxOrZero sib + 1)
  ∧ (∀ (sib : List Int) (s : KkSection),
        s.pk ≠ none ∨ s.ordering ≠ 0 ∨ s.hearing_id = none →
        kkSectionSave sib s = s)
  ∧ ((kkSectionSave [] ⟨none, some 7, 0⟩).ordering = 1
      ∧ (kkSectionSave [1] ⟨none, some 7, 0⟩).ordering = 2
      ∧ (kkSectionSave [1, 2] ⟨none, some 7, 0⟩).ordering = 3)
  ∧ (∀ sib : List Int, (kkSectionSave sib ⟨none, some 7, 10⟩).ordering = 10) := by
  refine ⟨?_, ?_, ⟨by decide, by decide, by decide⟩, ?_⟩
  · intro sib s h1 h2 h3
    simp [kkSectionSave, h1, h2, h3]
  · intro sib s hdis
    unfold kkSectionSave
    rw [if_neg]
    rintro ⟨h1, h2, h3⟩
    rcases hdis with h | h | h <;> exact absurd (by assumption) (by simp_all)
  · intro sib
    simp [kkSectionSave]

/-- Witness for C8 at a concrete input: a fresh section with default ordering
under a hearing whose sections have orderings `[1, 2]` is saved with
ordering 3. -/
theorem c8_legacy_section_auto_ordering_witness :
    (kkSectionSave [1, 2] ⟨none, some 7, 0⟩).ordering = pyMaxOrZero [1, 2] + 1 :=
  c8_legacy_section_auto_ordering.1 [1, 2] ⟨none, some 7, 0⟩ rfl rfl (by decide)

/-! ### ImageViewSet: organisation-admin gating of root image updates -/

structure DjHearing where
  organization : Option Nat

structure DjSection where
  hearing : DjHearing

structure DjSectionImage where
  storedSection : DjSection

structure ApiUser where
  admin_organizations : List Nat

/-- `ImageViewSet._is_user_organisation_admin`:
`target_org and request.user.admin_organizations.filter(id=target_org.id).exists()`
— a hearing without an organisation short-circuits to falsy. -/
def isUserOrganisationAdmin (u : ApiUser) (s : DjSection) : Bool :=
  match s.hearing.organization with
  | none => false
  | some orgId => u.admin_organizations.contains orgId

inductive UpdateOutcome
  | performed
  | permissionDenied (detail : String)
  deriving DecidableEq

def updateDeniedMsg : String := "Only organisation admin can update SectionImages"

/-- `ImageViewSet.perform_update`: the admin check runs against
`serializer.instance.section`, i.e. the stored section of the image; the
`newSection` possibly carried by the update payload is not consulted. -/
def performUpdate (u : ApiUser) (inst : DjSectionImage) (newSection : Option DjSection) :
    UpdateOutcome :=
  if isUserOrganisationAdmin u inst.storedSection then .performed
  else .permissionDenied updateDeniedMsg

/-- C10. `perform_update` denies exactly the requesters that are not admins
of the organisation of the hearing of the image's stored (pre-update)
section; the outcome is independent of any section supplied in the payload;
and a hearing without an organisation makes it deny every requester. -/
theorem c10_perform_update_authorization :
    (∀ (u : ApiUser) (inst : DjSectionImage) (ns : Option DjSection),
        performUpdate u inst ns = .permissionDenied updateDeniedMsg ↔
          ¬ ∃ orgId, inst.storedSection.hearing.organization = some orgId ∧
              orgId ∈ u.admin_organizations)
  ∧ (∀ (u : ApiUser) (inst : DjSectionImage) (ns₁ ns₂ : Option DjSection),
        performUpdate u inst ns₁ = performUpdate u inst ns₂)
  ∧ (∀ (u : ApiUser) (inst : DjSectionImage) (ns : Option DjSection),
        inst.storedSection.hearing.organization = none →
        performUpdate u inst ns = .permissionDenied updateDeniedMsg) := by
  refine ⟨?_, fun _ _ _ _ => rfl, ?_⟩
  · intro u inst ns
    unfold performUpdate isUserOrganisationAdmin
    rcases horg : inst.storedSection.hearing.organization with _ | orgId
    · simp [horg]
    · by_cases hmem : orgId ∈ u.admin_organizations
      · simp [hmem, horg, List.contains, List.elem_eq_mem]
      · simp [hmem, horg, List.contains, List.elem_eq_mem]
  · intro u inst ns horg
    unfold performUpdate isUserOrganisationAdmin
    rw [horg]
    rfl

/-- Witness for C10 at a concrete input: an image whose hearing has no
organisation is rejected even for a user administering organisation 1. -/
theorem c10_perform_update_authorization_witness :
    performUpdate ⟨[1]⟩ ⟨⟨⟨none⟩⟩⟩ none = .permissionDenied updateDeniedMsg :=
  c10_perform_update_authorization.2.2 ⟨[1]⟩ ⟨⟨⟨none⟩⟩⟩ none rfl

/-! ### Poll options, polls and images: rows, payloads, validation -/

structure PollOptionRow where
  id : Nat
  pollId : Nat
  text : String
  ordering : Int
  n_answers : Nat
  deleted : Bool

structure OptionPayload where
  pk : Option Nat
  text : String
  ordering : Int

structure PollRow where
  id : Nat
  sectionId : Nat
  text : String
  n_answers : Nat
  is_independent_poll : Bool
  ordering : Int
  deleted : Bool

structure PollPayload where
  pk : Option Nat
  text : String
  options : List OptionPayload
  is_independent_poll : Bool
  ordering : Int

structure ImageRow where
  id : Nat
  sectionId : Nat
  title : String
  ordering : Int
  deleted : Bool

structure ImagePayload where
  pk : Option Nat
  title : String
  ordering : Int

def optionNotFoundMsg (k : Nat) : String :=
  "The Poll does not have an option with ID " ++ toString k

/-- `SectionPollSerializer.validate_options`, iterating from index `i`:
assign 1-based `ordering := index + 1` to each payload regardless of any
incoming ordering value, and resolve a supplied id against the instance's
options, failing when the id is absent. Field-level validation of the option
serializer has no failing case in this model (its fields are free-form). -/
def validateOptionsFrom (instOptions : List PollOptionRow) :
    Nat → List OptionPayload → Except String (List OptionPayload)
  | _, [] => .ok []
  | i, d :: rest =>
    let d' := { d with ordering := (i : Int) + 1 }
    match d.pk with
    | some k =>
      if (instOptions.filter (fun o => o.id == k)).isEmpty then
        .error (optionNotFoundMsg k)
      else do
        let r ← validateOptionsFrom instOptions (i + 1) rest
        return d' :: r
    | none => do
      let r ← validateOptionsFrom instOptions (i + 1) rest
      return d' :: r

def validateOptions (instOptions : List PollOptionRow) (data : List OptionPayload) :
    Except String (List OptionPayload) :=
  validateOptionsFrom instOptions 0 data

def pollImmutableMsg (k : Nat) : String :=
  "Poll with ID " ++ toString k ++ " has answers - editing it is not allowed"

/-- `SectionCreateUpdateSerializer._validate_question_update`: a poll that
already has answers must keep its serialized text, its options' count and the
options' serialized texts pairwise equal under `compare_serialized` (`cmp`,
an external black-box comparison); any mismatch is rejected. `storedTexts`
is the text list of the poll's current serialized options. -/
def validateQuestionUpdate (cmp : String → String → Bool) (poll : PollRow)
    (storedTexts : List String) (pd : PollPayload) : Except String Unit :=
  if poll.n_answers > 0 then
    if cmp poll.text pd.text
        && storedTexts.length == pd.options.length
        && (storedTexts.zip pd.options).all (fun p => cmp p.1 p.2.text) then
      .ok ()
    else
      .error (pollImmutableMsg poll.id)
  else .ok ()

def pollNotFoundMsg (k : Nat) : String :=
  "The Section does not have a poll with ID " ++ toString k

/-- `SectionCreateUpdateSerializer.validate_questions`, iterating from `i`:
1-based ordering assignment, id resolution against the section's polls, and
the immutability guard applied to updates of existing polls. `optionTexts k`
stands for the serialized live option texts of the stored poll `k` used by
the guard. -/
def validateQuestionsFrom (cmp : String → String → Bool) (instPolls : List PollRow)
    (optionTexts : Nat → List String) :
    Nat → List PollPayload → Except String (List PollPayload)
  | _, [] => .ok []
  | i, d :: rest =>
    let d' := { d with ordering := (i : Int) + 1 }
    match d.pk with
    | some k =>
      match (instPolls.filter (fun p => p.id == k)).head? with
      | none => .error (pollNotFoundMsg k)
      | some poll => do
        validateQuestionUpdate cmp poll (optionTexts k) d'
        let r ← validateQuestionsFrom cmp instPolls optionTexts (i + 1) rest
        return d' :: r
    | none => do
      let r ← validateQuestionsFrom cmp instPolls optionTexts (i + 1) rest
      return d' :: r

def validateQuestions (cmp : String → String → Bool) (instPolls : List PollRow)
    (optionTexts : Nat → List String) (data : List PollPayload) :
    Except String (List PollPayload) :=
  validateQuestionsFrom cmp instPolls optionTexts 0 data

def imageNotFoundMsg (k : Nat) : String :=
  "The Section does not have an image with ID " ++ toString k

/-- `SectionCreateUpdateSerializer.validate_images`, iterating from `i`:
0-based ordering assignment (`ordering := index`) and id resolution against
the section's images. -/
def validateImagesFrom (instImages : List ImageRow) :
    Nat → List ImagePayload → Except String (List ImagePayload)
  | _, [] => .ok []
  | i, d :: rest =>
    let d' := { d with ordering := (i : Int) }
    match d.pk with
    | some k =>
      if (instImages.filter (fun im => im.id == k)).isEmpty then
        .error (imageNotFoundMsg k)
      else do
        let r ← validateImagesFrom instImages (i + 1) rest
        return d' :: r
    | none => do
      let r ← validateImagesFrom instImages (i + 1) rest
      return d' :: r

def validateImages (instImages : List ImageRow) (data : List ImagePayload) :
    Except String (List ImagePayload) :=
  validateImagesFrom instImages 0 data

lemma bind_ok_inv {α β : Type} {e : Except String α} {f : α → Except String β} {b : β}
    (h : (e >>= f) = .ok b) : ∃ a, e = .ok a ∧ f a = .ok b := by
  cases e with
  | error msg => exact absurd h (by simp [Bind.bind, Except.bind])
  | ok a => exact ⟨a, rfl, h⟩

lemma validateOptionsFrom_cons {instOptions : List PollOptionRow} {d : OptionPayload}
    {rest : List OptionPayload} {i : Nat} {res : List OptionPayload}
    (h : validateOptionsFrom instOptions i (d :: rest) = .ok res) :
    ∃ r, validateOptionsFrom instOptions (i + 1) rest = .ok r ∧
      res = { d with ordering := (i : Int) + 1 } :: r := by
  unfold validateOptionsFrom at h
  split at h
  · split at h
    · exact absurd h (by simp)
    · cases hrec : validateOptionsFrom instOptions (i + 1) rest with
      | error e => rw [hrec] at h; exact absurd h (by simp [Except.bind])
      | ok r => rw [hrec] at h; exact ⟨r, rfl, Except.ok.inj h.symm⟩
  · cases hrec : validateOptionsFrom instOptions (i + 1) rest with
    | error e => rw [hrec] at h; exact absurd h (by simp [Except.bind])
    | ok r => rw [hrec] at h; exact ⟨r, rfl, Except.ok.inj h.symm⟩

lemma validateOptionsFrom_ok (instOptions : List PollOptionRow) :
    ∀ (data : List OptionPayload) (i : Nat) (res : List OptionPayload),
      validateOptionsFrom instOptions i data = .ok res →
      res.length = data.length ∧
      ∀ (j : Nat) (o : OptionPayload), res.get? j = some o →
        o.ordering = ((i + j : Nat) : Int) + 1 := by
  intro data
  induction data with
  | nil =>
    intro i res h
    simp only [validateOptionsFrom] at h
    cases h
    simp
  | cons d rest ih =>
    intro i res h
    obtain ⟨r, hrec, hres⟩ := validateOptionsFrom_cons h
    obtain ⟨hlen, hpos⟩ := ih (i + 1) r hrec
    subst hres
    refine ⟨by simp [hlen], ?_⟩
    intro j o hj
    cases j with
    | zero =>
      simp only [List.get?_cons_zero, Option.some.injEq] at hj
      subst hj
      simp
    | succ j =>
      simp only [List.get?_cons_succ] at hj
      have hj' := hpos j o hj
      have harith : i + 1 + j = i + (j + 1) := by omega
      rw [harith] at hj'
      exact hj'

lemma validateImagesFrom_cons {instImages : List ImageRow} {d : ImagePayload}
    {rest : List ImagePayload} {i : Nat} {res : List ImagePayload}
    (h : validateImagesFrom instImages i (d :: rest) = .ok res) :
    ∃ r, validateImagesFrom instImages (i + 1) rest = .ok r ∧
      res = { d with ordering := (i : Int) } :: r := by
  unfold validateImagesFrom at h
  split at h
  · split at h
    · exact absurd h (by simp)
    · cases hrec : validateImagesFrom instImages (i + 1) rest with
      | error e => rw [hrec] at h; exact absurd h (by simp [Except.bind])
      | ok r => rw [hrec] at h; exact ⟨r, rfl, Except.ok.inj h.symm⟩
  · cases hrec : validateImagesFrom instImages (i + 1) rest with
    | error e => rw [hrec] at h; exact absurd h (by simp [Except.bind])
    | ok r => rw [hrec] at h; exact ⟨r, rfl, Except.ok.inj h.symm⟩

lemma validateImagesFrom_ok (instImages : List ImageRow) :
    ∀ (data : List ImagePayload) (i : Nat) (res : List ImagePayload),
      validateImagesFrom instImages i data = .ok res →
      res.length = data.length ∧
      ∀ (j : Nat) (o : ImagePayload), res.get? j = some o →
        o.ordering = ((i + j : Nat) : Int) := by
  intro data
  induction data with
  | nil =>
    intro i res h
    simp only [validateImagesFrom] at h
    cases h
    simp
  | cons d rest ih =>
    intro i res h
    obtain ⟨r, hrec, hres⟩ := validateImagesFrom_cons h
    obtain ⟨hlen, hpos⟩ := ih (i + 1) r hrec
    subst hres
    refine ⟨by simp [hlen], ?_⟩
    intro j o hj
    cases j with
    | zero =>
      simp only [List.get?_cons_zero, Option.some.injEq] at hj
      subst hj
      simp
    | succ j =>
      simp only [List.get?_cons_succ] at hj
      have hj' := hpos j o hj
      have harith : i + 1 + j = i + (j + 1) := by omega
      rw [harith] at hj'
      exact hj'

lemma validateQuestionsFrom_cons {cmp : String → String → Bool} {instPolls : List PollRow}
    {optionTexts : Nat → List String} {d : PollPayload}
    {rest : List PollPayload} {i : Nat} {res : List PollPayload}
    (h : validateQuestionsFrom cmp instPolls optionTexts i (d :: rest) = .ok res) :
    ∃ r, validateQuestionsFrom cmp instPolls optionTexts (i + 1) rest = .ok r ∧
      res = { d with ordering := (i : Int) + 1 } :: r := by
  unfold validateQuestionsFrom at h
  split at h
  · split at h
    · exact absurd h (by simp)
    · obtain ⟨u, hu, h2⟩ := bind_ok_inv h
      obtain ⟨r, hr, h3⟩ := bind_ok_inv h2
      exact ⟨r, hr, Except.ok.inj h3.symm⟩
  · obtain ⟨r, hr, h3⟩ := bind_ok_inv h
    exact ⟨r, hr, Except.ok.inj h3.symm⟩

lemma validateQuestionsFrom_ok (cmp : String → String → Bool) (instPolls : List PollRow)
    (optionTexts : Nat → List String) :
    ∀ (data : List PollPayload) (i : Nat) (res : List PollPayload),
      validateQuestionsFrom cmp instPolls optionTexts i data = .ok res →
      res.length = data.length ∧
      ∀ (j : Nat) (o : PollPayload), res.get? j = some o →
        o.ordering = ((i + j : Nat) : Int) + 1 := by
  intro data
  induction data with
  | nil =>
    intro i res h
    simp only [validateQuestionsFrom] at h
    cases h
    simp
  | cons d rest ih =>
    intro i res h
    obtain ⟨r, hrec, hres⟩ := validateQuestionsFrom_cons h
    obtain ⟨hlen, hpos⟩ := ih (i + 1) r hrec
    subst hres
    refine ⟨by simp [hlen], ?_⟩
    intro j o hj
    cases j with
    | zero =>
      simp only [List.get?_cons_zero, Option.some.injEq] at hj
      subst hj
      simp
    | succ j =>
      simp only [List.get?_cons_succ] at hj
      have hj' := hpos j o hj
      have harith : i + 1 + j = i + (j + 1) := by omega
      rw [harith] at hj'
      exact hj'

/-- C7. The validated element at zero-based position `j` carries ordering
`j + 1` for poll options and for questions, and ordering `j` for section
images — in each case regardless of any ordering value in the payload. -/
theorem c7_ordering_assignment :
    (∀ (instOptions : List PollOptionRow) (data res : List OptionPayload),
        validateOptions instOptions data = .ok res →
        res.length = data.length ∧
        ∀ (j : Nat) (o : OptionPayload), res.get? j = some o →
          o.ordering = (j : Int) + 1)
  ∧ (∀ (cmp : String → String → Bool) (instPolls : List PollRow)
        (optionTexts : Nat → List String) (data res : List PollPayload),
        validateQuestions cmp instPolls optionTexts data = .ok res →
        res.length = data.length ∧
        ∀ (j : Nat) (o : PollPayload), res.get? j = some o →
          o.ordering = (j : Int) + 1)
  ∧ (∀ (instImages : List ImageRow) (data res : List ImagePayload),
        validateImages instImages data = .ok res →
        res.length = data.length ∧
        ∀ (j : Nat) (o : ImagePayload), res.get? j = some o →
          o.ordering = (j : Int)) := by
  refine ⟨?_, ?_, ?_⟩
  · intro instOptions data res h
    obtain ⟨hlen, hpos⟩ := validateOptionsFrom_ok instOptions data 0 res h
    exact ⟨hlen, fun j o hj => by simpa using hpos j o hj⟩
  · intro cmp instPolls optionTexts data res h
    obtain ⟨hlen, hpos⟩ := validateQuestionsFrom_ok cmp instPolls optionTexts data 0 res h
    exact ⟨hlen, fun j o hj => by simpa using hpos j o hj⟩
  · intro instImages data res h
    obtain ⟨hlen, hpos⟩ := validateImagesFrom_ok instImages data 0 res h
    exact ⟨hlen, fun j o hj => by simpa using hpos j o hj⟩

/-- Witness for C7: three all-new options X, Y, Z receive orderings 1, 2, 3,
and two all-new images receive orderings 0, 1. -/
theorem c7_ordering_assignment_witness :
    (∃ res, validateOptions []
        [⟨none, "X", 9⟩, ⟨none, "Y", 9⟩, ⟨none, "Z", 9⟩] = .ok res ∧
      res.map (·.ordering) = [1, 2, 3]) ∧
    (∃ res, validateImages [] [⟨none, "A", 9⟩, ⟨none, "B", 9⟩] = .ok res ∧
      res.map (·.ordering) = [0, 1]) := by
  refine ⟨⟨_, rfl, ?_⟩, ⟨_, rfl, ?_⟩⟩
  · have h := (c7_ordering_assignment.1 []
      [⟨none, "X", 9⟩, ⟨none, "Y", 9⟩, ⟨none, "Z", 9⟩] _ rfl).2
    have h0 := h 0 _ rfl
    have h1 := h 1 _ rfl
    have h2 := h 2 _ rfl
    simp only [List.map]
    norm_num at h0 h1 h2 ⊢
  · have h := (c7_ordering_assignment.2.2 [] [⟨none, "A", 9⟩, ⟨none, "B", 9⟩] _ rfl).2
    have h0 := h 0 _ rfl
    have h1 := h 1 _ rfl
    simp only [List.map]
    norm_num at h0 h1 ⊢

lemma zip_map_fst {α β : Type} (f : α → β) (l : List α) :
    ∀ pr ∈ (l.map f).zip l, pr.1 = f pr.2 := by
  induction l with
  | nil => simp
  | cons a as ih =>
    intro pr hpr
    simp only [List.map_cons, List.zip_cons_cons, List.mem_cons] at hpr
    rcases hpr with rfl | hpr
    · rfl
    · exact ih pr hpr

/-- C2. `_validate_question_update`: a poll with zero answers is never
restricted; a poll with answers is rejected with the immutability message
exactly when its text changes under `compare_serialized` (`cmp`), or the
option count differs, or some positionally paired option text differs; and a
payload keeping text and option texts identical (whatever its
`is_independent_poll`) is accepted whenever `cmp` is reflexive. -/
theorem c2_poll_immutability (cmp : String → String → Bool) (poll : PollRow)
    (storedTexts : List String) (pd : PollPayload) :
    (poll.n_answers = 0 → validateQuestionUpdate cmp poll storedTexts pd = .ok ())
  ∧ (poll.n_answers > 0 →
      (validateQuestionUpdate cmp poll storedTexts pd = .error (pollImmutableMsg poll.id) ↔
        (cmp poll.text pd.text = false ∨ storedTexts.length ≠ pd.options.length ∨
          ∃ pr ∈ storedTexts.zip pd.options, cmp pr.1 pr.2.text = false)))
  ∧ (poll.n_answers > 0 → (∀ a, cmp a a = true) →
      pd.text = poll.text → pd.options.map (fun o => o.text) = storedTexts →
      validateQuestionUpdate cmp poll storedTexts pd = .ok ()) := by
  refine ⟨?_, ?_, ?_⟩
  · intro h0
    simp [validateQuestionUpdate, h0]
  · intro hpos
    unfold validateQuestionUpdate
    rw [if_pos hpos]
    cases hcond : (cmp poll.text pd.text
        && (storedTexts.length == pd.options.length)
        && (storedTexts.zip pd.options).all fun p => cmp p.1 p.2.text) with
    | false =>
      rw [if_neg (by simp)]
      constructor
      · intro _
        rcases Bool.and_eq_false_iff.mp hcond with hab | hc
        · rcases Bool.and_eq_false_iff.mp hab with ha | hb
          · exact Or.inl ha
          · exact Or.inr (Or.inl (beq_eq_false_iff_ne.mp hb))
        · obtain ⟨pr, hmem, hpr⟩ := List.all_eq_false.mp hc
          simp only [Bool.not_eq_true] at hpr
          exact Or.inr (Or.inr ⟨pr, hmem, hpr⟩)
      · intro _
        rfl
    | true =>
      rw [if_pos (by simp)]
      constructor
      · intro h
        exact absurd h (by simp)
      · intro hdisj
        exfalso
        simp only [Bool.and_eq_true] at hcond
        obtain ⟨⟨h1, h2⟩, h3⟩ := hcond
        rcases hdisj with h | h | ⟨pr, hmem, hpr⟩
        · rw [h1] at h
          exact Bool.noConfusion h
        · exact h (beq_iff_eq.mp h2)
        · have hall := List.all_eq_true.mp h3 pr hmem
          rw [hpr] at hall
          exact Bool.noConfusion hall
  · intro hpos hrefl htext hmap
    have hA : cmp poll.text pd.text = true := by rw [htext]; exact hrefl _
    have hB : (storedTexts.length == pd.options.length) = true := by
      rw [← hmap]
      simp
    have hC : ((storedTexts.zip pd.options).all fun p => cmp p.1 p.2.text) = true := by
      rw [← hmap]
      apply List.all_eq_true.mpr
      intro pr hm
      have hfst := zip_map_fst (fun o => o.text) pd.options pr hm
      show cmp pr.1 pr.2.text = true
      rw [hfst]
      exact hrefl _
    have hcond : (cmp poll.text pd.text
        && (storedTexts.length == pd.options.length)
        && (storedTexts.zip pd.options).all fun p => cmp p.1 p.2.text) = true := by
      rw [hA, hB, hC]
      rfl
    unfold validateQuestionUpdate
    rw [if_pos hpos, if_pos hcond]

/-- Witness for C2 with `compare_serialized` instantiated to string equality:
an unanswered poll accepts a text change; the same poll with one answer
rejects it with the immutability message; and with answers, changing only
`is_independent_poll` while keeping text and option texts identical is
accepted. -/
theorem c2_poll_immutability_witness :
    validateQuestionUpdate (fun a b => a == b) ⟨5, 1, "Q", 0, false, 1, false⟩ ["A"]
        ⟨some 5, "Qx", [⟨some 11, "B", 1⟩], false, 1⟩ = .ok () ∧
    validateQuestionUpdate (fun a b => a == b) ⟨5, 1, "Q", 1, false, 1, false⟩ ["A"]
        ⟨some 5, "Qx", [⟨some 11, "B", 1⟩], false, 1⟩ = .error (pollImmutableMsg 5) ∧
    validateQuestionUpdate (fun a b => a == b) ⟨5, 1, "Q", 1, false, 1, false⟩ ["A"]
        ⟨some 5, "Q", [⟨some 11, "A", 1⟩], true, 1⟩ = .ok () := by
  refine ⟨?_, ?_, ?_⟩
  · exact (c2_poll_immutability _ _ _ _).1 rfl
  · exact ((c2_poll_immutability _ _ _ _).2.1 (by decide)).mpr (Or.inl (by decide))
  · exact (c2_poll_immutability _ _ _ _).2.2 (by decide) (fun a => by simp) rfl rfl

/-! ### Image store: serializer.save, _handle_images, root creation -/

structure ImageStore where
  images : List ImageRow
  nextId : Nat

/-- Store sanity: the ids in the table are distinct and below the id
counter. -/
def ImageStore.WF (st : ImageStore) : Prop :=
  (st.images.map (fun r => r.id)).Nodup ∧ ∀ r ∈ st.images, r.id < st.nextId

/-- `serializer.save(section=section)` for one image payload: update the row
carrying the payload's id when one is present, else insert a new row bound
to the section; returns the saved row's id. -/
def saveImage (sid : Nat) (d : ImagePayload) (st : ImageStore) : ImageStore × Nat :=
  match d.pk with
  | some k =>
    ({ st with images := st.images.map (fun r =>
        if r.id = k then { r with sectionId := sid, title := d.title, ordering := d.ordering }
        else r) }, k)
  | none =>
    ({ images := st.images ++ [⟨st.nextId, sid, d.title, d.ordering, false⟩],
       nextId := st.nextId + 1 }, st.nextId)

/-- The save loop of `_handle_images`, collecting `new_image_ids`. -/
def saveImages (sid : Nat) : List ImagePayload → ImageStore → ImageStore × List Nat
  | [], st => (st, [])
  | d :: rest, st =>
    let s1 := saveImage sid d st
    let s2 := saveImages sid rest s1.1
    (s2.1, s1.2 :: s2.2)

/-- `SectionCreateUpdateSerializer._handle_images`: save every payload bound
to the section collecting the kept ids, then soft-delete each of the
section's images whose id was not kept (`deleted := true`; nothing is ever
removed from the table). -/
def handleImages (sid : Nat) (data : List ImagePayload) (st : ImageStore) : ImageStore :=
  let s := saveImages sid data st
  { s.1 with images := s.1.images.map (fun r =>
      if r.sectionId = sid ∧ r.id ∉ s.2 then { r with deleted := true } else r) }

lemma saveImage_ids (sid : Nat) (d : ImagePayload) (st : ImageStore) :
    ∃ tail, ((saveImage sid d st).1.images).map (fun r => r.id)
        = st.images.map (fun r => r.id) ++ tail ∧
      ∀ k ∈ tail, st.nextId ≤ k := by
  unfold saveImage
  rcases hpk : d.pk with _ | k
  · refine ⟨[st.nextId], ?_, by simp⟩
    simp
  · refine ⟨[], ?_, by simp⟩
    simp only [List.append_nil, List.map_map]
    apply List.map_congr_left
    intro a _
    simp only [Function.comp]
    split <;> rfl

lemma saveImage_nextId_mono (sid : Nat) (d : ImagePayload) (st : ImageStore) :
    st.nextId ≤ (saveImage sid d st).1.nextId := by
  unfold saveImage
  rcases hpk : d.pk with _ | k <;> simp

lemma saveImages_nextId_mono (sid : Nat) (data : List ImagePayload) :
    ∀ st : ImageStore, st.nextId ≤ (saveImages sid data st).1.nextId := by
  induction data with
  | nil => intro st; exact le_refl _
  | cons d rest ih =>
    intro st
    exact le_trans (saveImage_nextId_mono sid d st) (ih _)

lemma saveImages_ids (sid : Nat) (data : List ImagePayload) :
    ∀ st : ImageStore,
      ∃ tail, ((saveImages sid data st).1.images).map (fun r => r.id)
          = st.images.map (fun r => r.id) ++ tail ∧
        ∀ k ∈ tail, st.nextId ≤ k := by
  induction data with
  | nil => intro st; exact ⟨[], by simp [saveImages], by simp⟩
  | cons d rest ih =>
    intro st
    obtain ⟨t1, ht1, hk1⟩ := saveImage_ids sid d st
    obtain ⟨t2, ht2, hk2⟩ := ih (saveImage sid d st).1
    refine ⟨t1 ++ t2, ?_, ?_⟩
    · simp only [saveImages]
      rw [ht2, ht1, List.append_assoc]
    · intro k hk
      rcases List.mem_append.mp hk with h | h
      · exact hk1 k h
      · exact le_trans (saveImage_nextId_mono sid d st) (hk2 k h)

lemma saveImage_some {sid : Nat} {d : ImagePayload} {st : ImageStore} {k : Nat}
    (hpk : d.pk = some k) :
    saveImage sid d st = ({ st with images := st.images.map (fun r =>
        if r.id = k then { r with sectionId := sid, title := d.title, ordering := d.ordering }
        else r) }, k) := by
  unfold saveImage
  rw [hpk]

lemma saveImage_none {sid : Nat} {d : ImagePayload} {st : ImageStore} (hpk : d.pk = none) :
    saveImage sid d st =
      ({ images := st.images ++ [⟨st.nextId, sid, d.title, d.ordering, false⟩],
         nextId := st.nextId + 1 }, st.nextId) := by
  unfold saveImage
  rw [hpk]

lemma saveImage_untouched {sid : Nat} {d : ImagePayload} {st : ImageStore} {r : ImageRow}
    (hr : r ∈ st.images) (hne : d.pk ≠ some r.id) : r ∈ (saveImage sid d st).1.images := by
  rcases hpk : d.pk with _ | k
  · rw [saveImage_none hpk]
    exact List.mem_append_left _ hr
  · have hk : ¬(r.id = k) := by
      rintro rfl
      exact hne hpk
    rw [saveImage_some hpk]
    have hmap := List.mem_map_of_mem (fun x : ImageRow =>
      if x.id = k then { x with sectionId := sid, title := d.title, ordering := d.ordering }
      else x) hr
    simpa [hk] using hmap

lemma saveImages_untouched {sid : Nat} {data : List ImagePayload} :
    ∀ {st : ImageStore} {r : ImageRow}, r ∈ st.images →
      r.id ∉ data.filterMap (fun d => d.pk) → r ∈ (saveImages sid data st).1.images := by
  induction data with
  | nil => intro st r hr _; exact hr
  | cons d rest ih =>
    intro st r hr hnotin
    have hd : d.pk ≠ some r.id := by
      intro hpk
      exact hnotin (List.mem_filterMap.mpr ⟨d, List.mem_cons_self _ _, hpk⟩)
    have hrest : r.id ∉ rest.filterMap (fun d => d.pk) := by
      intro hm
      obtain ⟨a, ha, hpa⟩ := List.mem_filterMap.mp hm
      exact hnotin (List.mem_filterMap.mpr ⟨a, List.mem_cons_of_mem _ ha, hpa⟩)
    exact ih (saveImage_untouched hr hd) hrest

lemma saveImage_deleted_preserved {sid : Nat} {d : ImagePayload} {st : ImageStore} {r : ImageRow}
    (hr : r ∈ st.images) :
    ∃ r' ∈ (saveImage sid d st).1.images, r'.id = r.id ∧ r'.deleted = r.deleted := by
  rcases hpk : d.pk with _ | k
  · rw [saveImage_none hpk]
    exact ⟨r, List.mem_append_left _ hr, rfl, rfl⟩
  · rw [saveImage_some hpk]
    refine ⟨_, List.mem_map_of_mem _ hr, ?_, ?_⟩ <;> (split <;> rfl)

lemma saveImages_deleted_preserved {sid : Nat} {data : List ImagePayload} :
    ∀ {st : ImageStore} {r : ImageRow}, r ∈ st.images →
      ∃ r' ∈ (saveImages sid data st).1.images, r'.id = r.id ∧ r'.deleted = r.deleted := by
  induction data with
  | nil => intro st r hr; exact ⟨r, hr, rfl, rfl⟩
  | cons d rest ih =>
    intro st r hr
    obtain ⟨r1, hr1, hid1, hdel1⟩ := @saveImage_deleted_preserved sid d _ _ hr
    obtain ⟨r2, hr2, hid2, hdel2⟩ := ih hr1
    exact ⟨r2, hr2, hid2.trans hid1, hdel2.trans hdel1⟩

lemma saveImages_kept_sub {sid : Nat} {data : List ImagePayload} :
    ∀ {st : ImageStore} {k : Nat}, k ∈ (saveImages sid data st).2 →
      k ∈ data.filterMap (fun d => d.pk) ∨ st.nextId ≤ k := by
  induction data with
  | nil => intro st k hk; exact absurd hk (by simp [saveImages])
  | cons d rest ih =>
    intro st k hk
    simp only [saveImages, List.mem_cons] at hk
    rcases hk with rfl | hk
    · rcases hpk : d.pk with _ | k0
      · right
        rw [saveImage_none hpk]
      · left
        rw [saveImage_some hpk]
        exact List.mem_filterMap.mpr ⟨d, List.mem_cons_self _ _, hpk⟩
    · rcases ih hk with h | h
      · left
        obtain ⟨a, ha, hpa⟩ := List.mem_filterMap.mp h
        exact List.mem_filterMap.mpr ⟨a, List.mem_cons_of_mem _ ha, hpa⟩
      · right
        exact le_trans (saveImage_nextId_mono sid d st) h

lemma saveImages_pks_sub_kept {sid : Nat} {data : List ImagePayload} :
    ∀ {st : ImageStore} {k : Nat}, k ∈ data.filterMap (fun d => d.pk) →
      k ∈ (saveImages sid data st).2 := by
  induction data with
  | nil => intro st k hk; exact absurd hk (by simp)
  | cons d rest ih =>
    intro st k hk
    simp only [saveImages, List.mem_cons]
    rcases List.mem_filterMap.mp hk with ⟨a, ha, hpa⟩
    rcases List.mem_cons.mp ha with rfl | ha
    · left
      rw [saveImage_some hpa]
    · right
      exact ih (List.mem_filterMap.mpr ⟨a, ha, hpa⟩)

lemma handleImages_images (sid : Nat) (data : List ImagePayload) (st : ImageStore) :
    (handleImages sid data st).images
      = ((saveImages sid data st).1.images).map (fun r =>
          if r.sectionId = sid ∧ r.id ∉ (saveImages sid data st).2 then
            { r with deleted := true }
          else r) := rfl

lemma softDelete_map_id (sid : Nat) (kept : List Nat) (l : List ImageRow) :
    (l.map (fun r =>
        if r.sectionId = sid ∧ r.id ∉ kept then { r with deleted := true } else r)).map
      (fun r => r.id) = l.map (fun r => r.id) := by
  rw [List.map_map]
  apply List.map_congr_left
  intro a _
  simp only [Function.comp]
  split <;> rfl

lemma handleImages_spec (sid : Nat) (data : List ImagePayload) (st : ImageStore) :
    (∃ tail, (handleImages sid data st).images.map (fun r => r.id)
        = st.images.map (fun r => r.id) ++ tail)
  ∧ (st.WF → ∀ r ∈ st.images, r.sectionId = sid →
      r.id ∉ data.filterMap (fun d => d.pk) →
      ∃ r' ∈ (handleImages sid data st).images, r'.id = r.id ∧ r'.deleted = true)
  ∧ (∀ r ∈ st.images, r.deleted = false →
      r.id ∈ data.filterMap (fun d => d.pk) →
      ∃ r' ∈ (handleImages sid data st).images, r'.id = r.id ∧ r'.deleted = false) := by
  refine ⟨?_, ?_, ?_⟩
  · obtain ⟨tail, ht, _⟩ := saveImages_ids sid data st
    refine ⟨tail, ?_⟩
    rw [handleImages_images, softDelete_map_id, ht]
  · intro hwf r hr hsid hnotin
    have hr1 : r ∈ (saveImages sid data st).1.images := saveImages_untouched hr hnotin
    have hkept : r.id ∉ (saveImages sid data st).2 := by
      intro hk
      rcases saveImages_kept_sub hk with h | h
      · exact hnotin h
      · exact absurd (hwf.2 r hr) (not_lt.mpr h)
    refine ⟨{ r with deleted := true }, ?_, rfl, rfl⟩
    rw [handleImages_images]
    have hmem := List.mem_map_of_mem (fun x : ImageRow =>
      if x.sectionId = sid ∧ x.id ∉ (saveImages sid data st).2 then
        { x with deleted := true }
      else x) hr1
    simpa [hsid, hkept] using hmem
  · intro r hr hdel hin
    obtain ⟨r', hr', hid, hdel'⟩ := @saveImages_deleted_preserved sid data _ _ hr
    have hkept : r'.id ∈ (saveImages sid data st).2 := by
      rw [hid]
      exact saveImages_pks_sub_kept hin
    refine ⟨r', ?_, hid, by rw [hdel', hdel]⟩
    rw [handleImages_images]
    have hmem := List.mem_map_of_mem (fun x : ImageRow =>
      if x.sectionId = sid ∧ x.id ∉ (saveImages sid data st).2 then
        { x with deleted := true }
      else x) hr'
    simpa [hkept] using hmem

/-! ### Option store: serializer.save and _handle_options -/

structure OptionStore where
  options : List PollOptionRow
  nextId : Nat

def OptionStore.WF (st : OptionStore) : Prop :=
  (st.options.map (fun r => r.id)).Nodup ∧ ∀ r ∈ st.options, r.id < st.nextId

/-- `serializer.save(poll=poll, ordering=...)` for one option payload:
update the row carrying the payload's id when one is present, else insert a
new row bound to the poll; returns the saved row's id. -/
def saveOption (pid : Nat) (d : OptionPayload) (st : OptionStore) : OptionStore × Nat :=
  match d.pk with
  | some k =>
    ({ st with options := st.options.map (fun r =>
        if r.id = k then { r with pollId := pid, text := d.text, ordering := d.ordering }
        else r) }, k)
  | none =>
    ({ options := st.options ++ [⟨st.nextId, pid, d.text, d.ordering, 0, false⟩],
       nextId := st.nextId + 1 }, st.nextId)

/-- The save loop of `_handle_options`, collecting `new_option_ids`. -/
def saveOptionRows (pid : Nat) : List OptionPayload → OptionStore → OptionStore × List Nat
  | [], st => (st, [])
  | d :: rest, st =>
    let s1 := saveOption pid d st
    let s2 := saveOptionRows pid rest s1.1
    (s2.1, s1.2 :: s2.2)

/-- `SectionPollSerializer._handle_options`: save every payload bound to the
poll collecting the kept ids, then soft-delete each of the poll's options
whose id was not kept; nothing is ever removed from the table. -/
def handleOptions (pid : Nat) (data : List OptionPayload) (st : OptionStore) : OptionStore :=
  let s := saveOptionRows pid data st
  { s.1 with options := s.1.options.map (fun r =>
      if r.pollId = pid ∧ r.id ∉ s.2 then { r with deleted := true } else r) }

lemma saveOption_some {pid : Nat} {d : OptionPayload} {st : OptionStore} {k : Nat}
    (hpk : d.pk = some k) :
    saveOption pid d st = ({ st with options := st.options.map (fun r =>
        if r.id = k then { r with pollId := pid, text := d.text, ordering := d.ordering }
        else r) }, k) := by
  unfold saveOption
  rw [hpk]

lemma saveOption_none {pid : Nat} {d : OptionPayload} {st : OptionStore} (hpk : d.pk = none) :
    saveOption pid d st =
      ({ options := st.options ++ [⟨st.nextId, pid, d.text, d.ordering, 0, false⟩],
         nextId := st.nextId + 1 }, st.nextId) := by
  unfold saveOption
  rw [hpk]

lemma saveOption_ids (pid : Nat) (d : OptionPayload) (st : OptionStore) :
    ∃ tail, ((saveOption pid d st).1.options).map (fun r => r.id)
        = st.options.map (fun r => r.id) ++ tail ∧
      ∀ k ∈ tail, st.nextId ≤ k := by
  rcases hpk : d.pk with _ | k
  · rw [saveOption_none hpk]
    refine ⟨[st.nextId], by simp, by simp⟩
  · rw [saveOption_some hpk]
    refine ⟨[], ?_, by simp⟩
    simp only [List.append_nil, List.map_map]
    apply List.map_congr_left
    intro a _
    simp only [Function.comp]
    split <;> rfl

lemma saveOption_nextId_mono (pid : Nat) (d : OptionPayload) (st : OptionStore) :
    st.nextId ≤ (saveOption pid d st).1.nextId := by
  rcases hpk : d.pk with _ | k
  · rw [saveOption_none hpk]
    simp
  · rw [saveOption_some hpk]

lemma saveOptionRows_nextId_mono (pid : Nat) (data : List OptionPayload) :
    ∀ st : OptionStore, st.nextId ≤ (saveOptionRows pid data st).1.nextId := by
  induction data with
  | nil => intro st; exact le_refl _
  | cons d rest ih =>
    intro st
    exact le_trans (saveOption_nextId_mono pid d st) (ih _)

lemma saveOptionRows_ids (pid : Nat) (data : List OptionPayload) :
    ∀ st : OptionStore,
      ∃ tail, ((saveOptionRows pid data st).1.options).map (fun r => r.id)
          = st.options.map (fun r => r.id) ++ tail ∧
        ∀ k ∈ tail, st.nextId ≤ k := by
  induction data with
  | nil => intro st; exact ⟨[], by simp [saveOptionRows], by simp⟩
  | cons d rest ih =>
    intro st
    obtain ⟨t1, ht1, hk1⟩ := saveOption_ids pid d st
    obtain ⟨t2, ht2, hk2⟩ := ih (saveOption pid d st).1
    refine ⟨t1 ++ t2, ?_, ?_⟩
    · simp only [saveOptionRows]
      rw [ht2, ht1, List.append_assoc]
    · intro k hk
      rcases List.mem_append.mp hk with h | h
      · exact hk1 k h
      · exact le_trans (saveOption_nextId_mono pid d st) (hk2 k h)

lemma saveOption_untouched {pid : Nat} {d : OptionPayload} {st : OptionStore} {r : PollOptionRow}
    (hr : r ∈ st.options) (hne : d.pk ≠ some r.id) : r ∈ (saveOption pid d st).1.options := by
  rcases hpk : d.pk with _ | k
  · rw [saveOption_none hpk]
    exact List.mem_append_left _ hr
  · have hk : ¬(r.id = k) := by
      rintro rfl
      exact hne hpk
    rw [saveOption_some hpk]
    have hmap := List.mem_map_of_mem (fun x : PollOptionRow =>
      if x.id = k then { x with pollId := pid, text := d.text, ordering := d.ordering }
      else x) hr
    simpa [hk] using hmap

lemma saveOptionRows_untouched {pid : Nat} {data : List OptionPayload} :
    ∀ {st : OptionStore} {r : PollOptionRow}, r ∈ st.options →
      r.id ∉ data.filterMap (fun d => d.pk) → r ∈ (saveOptionRows pid data st).1.options := by
  induction data with
  | nil => intro st r hr _; exact hr
  | cons d rest ih =>
    intro st r hr hnotin
    have hd : d.pk ≠ some r.id := by
      intro hpk
      exact hnotin (List.mem_filterMap.mpr ⟨d, List.mem_cons_self _ _, hpk⟩)
    have hrest : r.id ∉ rest.filterMap (fun d => d.pk) := by
      intro hm
      obtain ⟨a, ha, hpa⟩ := List.mem_filterMap.mp hm
      exact hnotin (List.mem_filterMap.mpr ⟨a, List.mem_cons_of_mem _ ha, hpa⟩)
    exact ih (saveOption_untouched hr hd) hrest

lemma saveOption_deleted_preserved {pid : Nat} {d : OptionPayload} {st : OptionStore}
    {r : PollOptionRow} (hr : r ∈ st.options) :
    ∃ r' ∈ (saveOption pid d st).1.options, r'.id = r.id ∧ r'.deleted = r.deleted := by
  rcases hpk : d.pk with _ | k
  · rw [saveOption_none hpk]
    exact ⟨r, List.mem_append_left _ hr, rfl, rfl⟩
  · rw [saveOption_some hpk]
    refine ⟨_, List.mem_map_of_mem _ hr, ?_, ?_⟩ <;> (split <;> rfl)

lemma saveOptionRows_deleted_preserved {pid : Nat} {data : List OptionPayload} :
    ∀ {st : OptionStore} {r : PollOptionRow}, r ∈ st.options →
      ∃ r' ∈ (saveOptionRows pid data st).1.options, r'.id = r.id ∧ r'.deleted = r.deleted := by
  induction data with
  | nil => intro st r hr; exact ⟨r, hr, rfl, rfl⟩
  | cons d rest ih =>
    intro st r hr
    obtain ⟨r1, hr1, hid1, hdel1⟩ := @saveOption_deleted_preserved pid d _ _ hr
    obtain ⟨r2, hr2, hid2, hdel2⟩ := ih hr1
    exact ⟨r2, hr2, hid2.trans hid1, hdel2.trans hdel1⟩

lemma saveOptionRows_kept_sub {pid : Nat} {data : List OptionPayload} :
    ∀ {st : OptionStore} {k : Nat}, k ∈ (saveOptionRows pid data st).2 →
      k ∈ data.filterMap (fun d => d.pk) ∨ st.nextId ≤ k := by
  induction data with
  | nil => intro st k hk; exact absurd hk (by simp [saveOptionRows])
  | cons d rest ih =>
    intro st k hk
    simp only [saveOptionRows, List.mem_cons] at hk
    rcases hk with rfl | hk
    · rcases hpk : d.pk with _ | k0
      · right
        rw [saveOption_none hpk]
      · left
        rw [saveOption_some hpk]
        exact List.mem_filterMap.mpr ⟨d, List.mem_cons_self _ _, hpk⟩
    · rcases ih hk with h | h
      · left
        obtain ⟨a, ha, hpa⟩ := List.mem_filterMap.mp h
        exact List.mem_filterMap.mpr ⟨a, List.mem_cons_of_mem _ ha, hpa⟩
      · right
        exact le_trans (saveOption_nextId_mono pid d st) h

lemma saveOptionRows_pks_sub_kept {pid : Nat} {data : List OptionPayload} :
    ∀ {st : OptionStore} {k : Nat}, k ∈ data.filterMap (fun d => d.pk) →
      k ∈ (saveOptionRows pid data st).2 := by
  induction data with
  | nil => intro st k hk; exact absurd hk (by simp)
  | cons d rest ih =>
    intro st k hk
    simp only [saveOptionRows, List.mem_cons]
    rcases List.mem_filterMap.mp hk with ⟨a, ha, hpa⟩
    rcases List.mem_cons.mp ha with rfl | ha
    · left
      rw [saveOption_some hpa]
    · right
      exact ih (List.mem_filterMap.mpr ⟨a, ha, hpa⟩)

lemma handleOptions_options (pid : Nat) (data : List OptionPayload) (st : OptionStore) :
    (handleOptions pid data st).options
      = ((saveOptionRows pid data st).1.options).map (fun r =>
          if r.pollId = pid ∧ r.id ∉ (saveOptionRows pid data st).2 then
            { r with deleted := true }
          else r) := rfl

lemma optionSoftDelete_map_id (pid : Nat) (kept : List Nat) (l : List PollOptionRow) :
    (l.map (fun r =>
        if r.pollId = pid ∧ r.id ∉ kept then { r with deleted := true } else r)).map
      (fun r => r.id) = l.map (fun r => r.id) := by
  rw [List.map_map]
  apply List.map_congr_left
  intro a _
  simp only [Function.comp]
  split <;> rfl

lemma handleOptions_spec (pid : Nat) (data : List OptionPayload) (st : OptionStore) :
    (∃ tail, (handleOptions pid data st).options.map (fun r => r.id)
        = st.options.map (fun r => r.id) ++ tail)
  ∧ (st.WF → ∀ r ∈ st.options, r.pollId = pid →
      r.id ∉ data.filterMap (fun d => d.pk) →
      ∃ r' ∈ (handleOptions pid data st).options, r'.id = r.id ∧ r'.deleted = true)
  ∧ (∀ r ∈ st.options, r.deleted = false →
      r.id ∈ data.filterMap (fun d => d.pk) →
      ∃ r' ∈ (handleOptions pid data st).options, r'.id = r.id ∧ r'.deleted = false) := by
  refine ⟨?_, ?_, ?_⟩
  · obtain ⟨tail, ht, _⟩ := saveOptionRows_ids pid data st
    refine ⟨tail, ?_⟩
    rw [handleOptions_options, optionSoftDelete_map_id, ht]
  · intro hwf r hr hpid hnotin
    have hr1 : r ∈ (saveOptionRows pid data st).1.options := saveOptionRows_untouched hr hnotin
    have hkept : r.id ∉ (saveOptionRows pid data st).2 := by
      intro hk
      rcases saveOptionRows_kept_sub hk with h | h
      · exact hnotin h
      · exact absurd (hwf.2 r hr) (not_lt.mpr h)
    refine ⟨{ r with deleted := true }, ?_, rfl, rfl⟩
    rw [handleOptions_options]
    have hmem := List.mem_map_of_mem (fun x : PollOptionRow =>
      if x.pollId = pid ∧ x.id ∉ (saveOptionRows pid data st).2 then
        { x with deleted := true }
      else x) hr1
    simpa [hpid, hkept] using hmem
  · intro r hr hdel hin
    obtain ⟨r', hr', hid, hdel'⟩ :=
      @saveOptionRows_deleted_preserved pid data _ _ hr
    have hkept : r'.id ∈ (saveOptionRows pid data st).2 := by
      rw [hid]
      exact saveOptionRows_pks_sub_kept hin
    refine ⟨r', ?_, hid, by rw [hdel', hdel]⟩
    rw [handleOptions_options]
    have hmem := List.mem_map_of_mem (fun x : PollOptionRow =>
      if x.pollId = pid ∧ x.id ∉ (saveOptionRows pid data st).2 then
        { x with deleted := true }
      else x) hr'
    simpa [hkept] using hmem

/-! ### Poll store: serializer.save and _handle_questions -/

structure PollStore where
  polls : List PollRow
  nextId : Nat

def PollStore.WF (st : PollStore) : Prop :=
  (st.polls.map (fun r => r.id)).Nodup ∧ ∀ r ∈ st.polls, r.id < st.nextId

/-- `serializer.save(section=section, ordering=...)` for one poll payload:
update the row carrying the payload's id when one is present, else insert a
new row bound to the section; returns the saved row's id. -/
def savePoll (sid : Nat) (d : PollPayload) (st : PollStore) : PollStore × Nat :=
  match d.pk with
  | some k =>
    ({ st with polls := st.polls.map (fun r =>
        if r.id = k then
          { r with sectionId := sid, text := d.text,
                   is_independent_poll := d.is_independent_poll, ordering := d.ordering }
        else r) }, k)
  | none =>
    ({ polls := st.polls ++ [⟨st.nextId, sid, d.text, 0, d.is_independent_poll,
         d.ordering, false⟩],
       nextId := st.nextId + 1 }, st.nextId)

/-- The save loop of `_handle_questions`, collecting `new_poll_ids`. -/
def savePollRows (sid : Nat) : List PollPayload → PollStore → PollStore × List Nat
  | [], st => (st, [])
  | d :: rest, st =>
    let s1 := savePoll sid d st
    let s2 := savePollRows sid rest s1.1
    (s2.1, s1.2 :: s2.2)

/-- `SectionCreateUpdateSerializer._handle_questions`: save every poll
payload bound to the section collecting the kept ids, then soft-delete each
of the section's polls whose id was not kept; nothing is ever removed from
the table. -/
def handleQuestions (sid : Nat) (data : List PollPayload) (st : PollStore) : PollStore :=
  let s := savePollRows sid data st
  { s.1 with polls := s.1.polls.map (fun r =>
      if r.sectionId = sid ∧ r.id ∉ s.2 then { r with deleted := true } else r) }

lemma savePoll_some {sid : Nat} {d : PollPayload} {st : PollStore} {k : Nat}
    (hpk : d.pk = some k) :
    savePoll sid d st = ({ st with polls := st.polls.map (fun r =>
        if r.id = k then
          { r with sectionId := sid, text := d.text,
                   is_independent_poll := d.is_independent_poll, ordering := d.ordering }
        else r) }, k) := by
  unfold savePoll
  rw [hpk]

lemma savePoll_none {sid : Nat} {d : PollPayload} {st : PollStore} (hpk : d.pk = none) :
    savePoll sid d st =
      ({ polls := st.polls ++ [⟨st.nextId, sid, d.text, 0, d.is_independent_poll,
           d.ordering, false⟩],
         nextId := st.nextId + 1 }, st.nextId) := by
  unfold savePoll
  rw [hpk]

lemma savePoll_ids (sid : Nat) (d : PollPayload) (st : PollStore) :
    ∃ tail, ((savePoll sid d st).1.polls).map (fun r => r.id)
        = st.polls.map (fun r => r.id) ++ tail ∧
      ∀ k ∈ tail, st.nextId ≤ k := by
  rcases hpk : d.pk with _ | k
  · rw [savePoll_none hpk]
    refine ⟨[st.nextId], by simp, by simp⟩
  · rw [savePoll_some hpk]
    refine ⟨[], ?_, by simp⟩
    simp only [List.append_nil, List.map_map]
    apply List.map_congr_left
    intro a _
    simp only [Function.comp]
    split <;> rfl

lemma savePoll_nextId_mono (sid : Nat) (d : PollPayload) (st : PollStore) :
    st.nextId ≤ (savePoll sid d st).1.nextId := by
  rcases hpk : d.pk with _ | k
  · rw [savePoll_none hpk]
    simp
  · rw [savePoll_some hpk]

lemma savePollRows_ids (sid : Nat) (data : List PollPayload) :
    ∀ st : PollStore,
      ∃ tail, ((savePollRows sid data st).1.polls).map (fun r => r.id)
          = st.polls.map (fun r => r.id) ++ tail ∧
        ∀ k ∈ tail, st.nextId ≤ k := by
  induction data with
  | nil => intro st; exact ⟨[], by simp [savePollRows], by simp⟩
  | cons d rest ih =>
    intro st
    obtain ⟨t1, ht1, hk1⟩ := savePoll_ids sid d st
    obtain ⟨t2, ht2, hk2⟩ := ih (savePoll sid d st).1
    refine ⟨t1 ++ t2, ?_, ?_⟩
    · simp only [savePollRows]
      rw [ht2, ht1, List.append_assoc]
    · intro k hk
      rcases List.mem_append.mp hk with h | h
      · exact hk1 k h
      · exact le_trans (savePoll_nextId_mono sid d st) (hk2 k h)

lemma savePoll_untouched {sid : Nat} {d : PollPayload} {st : PollStore} {r : PollRow}
    (hr : r ∈ st.polls) (hne : d.pk ≠ some r.id) : r ∈ (savePoll sid d st).1.polls := by
  rcases hpk : d.pk with _ | k
  · rw [savePoll_none hpk]
    exact List.mem_append_left _ hr
  · have hk : ¬(r.id = k) := by
      rintro rfl
      exact hne hpk
    rw [savePoll_some hpk]
    have hmap := List.mem_map_of_mem (fun x : PollRow =>
      if x.id = k then
        { x with sectionId := sid, text := d.text,
                 is_independent_poll := d.is_independent_poll, ordering := d.ordering }
      else x) hr
    simpa [hk] using hmap

lemma savePollRows_untouched {sid : Nat} {data : List PollPayload} :
    ∀ {st : PollStore} {r : PollRow}, r ∈ st.polls →
      r.id ∉ data.filterMap (fun d => d.pk) → r ∈ (savePollRows sid data st).1.polls := by
  induction data with
  | nil => intro st r hr _; exact hr
  | cons d rest ih =>
    intro st r hr hnotin
    have hd : d.pk ≠ some r.id := by
      intro hpk
      exact hnotin (List.mem_filterMap.mpr ⟨d, List.mem_cons_self _ _, hpk⟩)
    have hrest : r.id ∉ rest.filterMap (fun d => d.pk) := by
      intro hm
      obtain ⟨a, ha, hpa⟩ := List.mem_filterMap.mp hm
      exact hnotin (List.mem_filterMap.mpr ⟨a, List.mem_cons_of_mem _ ha, hpa⟩)
    exact ih (savePoll_untouched hr hd) hrest

lemma savePoll_deleted_preserved {sid : Nat} {d : PollPayload} {st : PollStore}
    {r : PollRow} (hr : r ∈ st.polls) :
    ∃ r' ∈ (savePoll sid d st).1.polls, r'.id = r.id ∧ r'.deleted = r.deleted := by
  rcases hpk : d.pk with _ | k
  · rw [savePoll_none hpk]
    exact ⟨r, List.mem_append_left _ hr, rfl, rfl⟩
  · rw [savePoll_some hpk]
    refine ⟨_, List.mem_map_of_mem _ hr, ?_, ?_⟩ <;> (split <;> rfl)

lemma savePollRows_deleted_preserved {sid : Nat} {data : List PollPayload} :
    ∀ {st : PollStore} {r : PollRow}, r ∈ st.polls →
      ∃ r' ∈ (savePollRows sid data st).1.polls, r'.id = r.id ∧ r'.deleted = r.deleted := by
  induction data with
  | nil => intro st r hr; exact ⟨r, hr, rfl, rfl⟩
  | cons d rest ih =>
    intro st r hr
    obtain ⟨r1, hr1, hid1, hdel1⟩ := @savePoll_deleted_preserved sid d _ _ hr
    obtain ⟨r2, hr2, hid2, hdel2⟩ := ih hr1
    exact ⟨r2, hr2, hid2.trans hid1, hdel2.trans hdel1⟩

lemma savePollRows_kept_sub {sid : Nat} {data : List PollPayload} :
    ∀ {st : PollStore} {k : Nat}, k ∈ (savePollRows sid data st).2 →
      k ∈ data.filterMap (fun d => d.pk) ∨ st.nextId ≤ k := by
  induction data with
  | nil => intro st k hk; exact absurd hk (by simp [savePollRows])
  | cons d rest ih =>
    intro st k hk
    simp only [savePollRows, List.mem_cons] at hk
    rcases hk with rfl | hk
    · rcases hpk : d.pk with _ | k0
      · right
        rw [savePoll_none hpk]
      · left
        rw [savePoll_some hpk]
        exact List.mem_filterMap.mpr ⟨d, List.mem_cons_self _ _, hpk⟩
    · rcases ih hk with h | h
      · left
        obtain ⟨a, ha, hpa⟩ := List.mem_filterMap.mp h
        exact List.mem_filterMap.mpr ⟨a, List.mem_cons_of_mem _ ha, hpa⟩
      · right
        exact le_trans (savePoll_nextId_mono sid d st) h

lemma savePollRows_pks_sub_kept {sid : Nat} {data : List PollPayload} :
    ∀ {st : PollStore} {k : Nat}, k ∈ data.filterMap (fun d => d.pk) →
      k ∈ (savePollRows sid data st).2 := by
  induction data with
  | nil => intro st k hk; exact absurd hk (by simp)
  | cons d rest ih =>
    intro st k hk
    simp only [savePollRows, List.mem_cons]
    rcases List.mem_filterMap.mp hk with ⟨a, ha, hpa⟩
    rcases List.mem_cons.mp ha with rfl | ha
    · left
      rw [savePoll_some hpa]
    · right
      exact ih (List.mem_filterMap.mpr ⟨a, ha, hpa⟩)

lemma handleQuestions_polls (sid : Nat) (data : List PollPayload) (st : PollStore) :
    (handleQuestions sid data st).polls
      = ((savePollRows sid data st).1.polls).map (fun r =>
          if r.sectionId = sid ∧ r.id ∉ (savePollRows sid data st).2 then
            { r with deleted := true }
          else r) := rfl

lemma pollSoftDelete_map_id (sid : Nat) (kept : List Nat) (l : List PollRow) :
    (l.map (fun r =>
        if r.sectionId = sid ∧ r.id ∉ kept then { r with deleted := true } else r)).map
      (fun r => r.id) = l.map (fun r => r.id) := by
  rw [List.map_map]
  apply List.map_congr_left
  intro a _
  simp only [Function.comp]
  split <;> rfl

lemma handleQuestions_spec (sid : Nat) (data : List PollPayload) (st : PollStore) :
    (∃ tail, (handleQuestions sid data st).polls.map (fun r => r.id)
        = st.polls.map (fun r => r.id) ++ tail)
  ∧ (st.WF → ∀ r ∈ st.polls, r.sectionId = sid →
      r.id ∉ data.filterMap (fun d => d.pk) →
      ∃ r' ∈ (handleQuestions sid data st).polls, r'.id = r.id ∧ r'.deleted = true)
  ∧ (∀ r ∈ st.polls, r.deleted = false →
      r.id ∈ data.filterMap (fun d => d.pk) →
      ∃ r' ∈ (handleQuestions sid data st).polls, r'.id = r.id ∧ r'.deleted = false) := by
  refine ⟨?_, ?_, ?_⟩
  · obtain ⟨tail, ht, _⟩ := savePollRows_ids sid data st
    refine ⟨tail, ?_⟩
    rw [handleQuestions_polls, pollSoftDelete_map_id, ht]
  · intro hwf r hr hsid hnotin
    have hr1 : r ∈ (savePollRows sid data st).1.polls := savePollRows_untouched hr hnotin
    have hkept : r.id ∉ (savePollRows sid data st).2 := by
      intro hk
      rcases savePollRows_kept_sub hk with h | h
      · exact hnotin h
      · exact absurd (hwf.2 r hr) (not_lt.mpr h)
    refine ⟨{ r with deleted := true }, ?_, rfl, rfl⟩
    rw [handleQuestions_polls]
    have hmem := List.mem_map_of_mem (fun x : PollRow =>
      if x.sectionId = sid ∧ x.id ∉ (savePollRows sid data st).2 then
        { x with deleted := true }
      else x) hr1
    simpa [hsid, hkept] using hmem
  · intro r hr hdel hin
    obtain ⟨r', hr', hid, hdel'⟩ := @savePollRows_deleted_preserved sid data _ _ hr
    have hkept : r'.id ∈ (savePollRows sid data st).2 := by
      rw [hid]
      exact savePollRows_pks_sub_kept hin
    refine ⟨r', ?_, hid, by rw [hdel', hdel]⟩
    rw [handleQuestions_polls]
    have hmem := List.mem_map_of_mem (fun x : PollRow =>
      if x.sectionId = sid ∧ x.id ∉ (savePollRows sid data st).2 then
        { x with deleted := true }
      else x) hr'
    simpa [hkept] using hmem

/-- C5. `_handle_images`, `_handle_questions` and `_handle_options` only
soft-delete: every pre-existing row id survives in the table (ids are only
appended, never removed), a child of the section/poll — section image, poll,
or poll option — whose id is absent from the incoming payload array ends up
with `deleted = true`, and a child whose id occurs in the incoming array
stays `deleted = false`. -/
theorem c5_soft_delete_children :
    (∀ (sid : Nat) (data : List ImagePayload) (st : ImageStore),
       (∃ tail, (handleImages sid data st).images.map (fun r => r.id)
           = st.images.map (fun r => r.id) ++ tail)
     ∧ (st.WF → ∀ r ∈ st.images, r.sectionId = sid →
         r.id ∉ data.filterMap (fun d => d.pk) →
         ∃ r' ∈ (handleImages sid data st).images, r'.id = r.id ∧ r'.deleted = true)
     ∧ (∀ r ∈ st.images, r.deleted = false →
         r.id ∈ data.filterMap (fun d => d.pk) →
         ∃ r' ∈ (handleImages sid data st).images, r'.id = r.id ∧ r'.deleted = false))
  ∧ (∀ (pid : Nat) (data : List OptionPayload) (st : OptionStore),
       (∃ tail, (handleOptions pid data st).options.map (fun r => r.id)
           = st.options.map (fun r => r.id) ++ tail)
     ∧ (st.WF → ∀ r ∈ st.options, r.pollId = pid →
         r.id ∉ data.filterMap (fun d => d.pk) →
         ∃ r' ∈ (handleOptions pid data st).options, r'.id = r.id ∧ r'.deleted = true)
     ∧ (∀ r ∈ st.options, r.deleted = false →
         r.id ∈ data.filterMap (fun d => d.pk) →
         ∃ r' ∈ (handleOptions pid data st).options, r'.id = r.id ∧ r'.deleted = false))
  ∧ (∀ (sid : Nat) (data : List PollPayload) (st : PollStore),
       (∃ tail, (handleQuestions sid data st).polls.map (fun r => r.id)
           = st.polls.map (fun r => r.id) ++ tail)
     ∧ (st.WF → ∀ r ∈ st.polls, r.sectionId = sid →
         r.id ∉ data.filterMap (fun d => d.pk) →
         ∃ r' ∈ (handleQuestions sid data st).polls, r'.id = r.id ∧ r'.deleted = true)
     ∧ (∀ r ∈ st.polls, r.deleted = false →
         r.id ∈ data.filterMap (fun d => d.pk) →
         ∃ r' ∈ (handleQuestions sid data st).polls, r'.id = r.id ∧ r'.deleted = false)) :=
  ⟨handleImages_spec, handleOptions_spec, handleQuestions_spec⟩

/-- Witness for C5: a section with images A(1), B(2), C(3); an update
payload keeping ids 1 and 3 soft-deletes image 2 and leaves image 1
undeleted; and a section with polls 1 and 2 whose update keeps only poll 1
soft-deletes poll 2. -/
theorem c5_soft_delete_children_witness :
    (∃ r' ∈ (handleImages 7 [⟨some 1, "A", 0⟩, ⟨some 3, "C", 1⟩]
        ⟨[⟨1, 7, "A", 0, false⟩, ⟨2, 7, "B", 1, false⟩, ⟨3, 7, "C", 2, false⟩], 4⟩).images,
      r'.id = 2 ∧ r'.deleted = true) ∧
    (∃ r' ∈ (handleImages 7 [⟨some 1, "A", 0⟩, ⟨some 3, "C", 1⟩]
        ⟨[⟨1, 7, "A", 0, false⟩, ⟨2, 7, "B", 1, false⟩, ⟨3, 7, "C", 2, false⟩], 4⟩).images,
      r'.id = 1 ∧ r'.deleted = false) ∧
    (∃ r' ∈ (handleQuestions 7 [⟨some 1, "Q1", [], false, 1⟩]
        ⟨[⟨1, 7, "Q1", 0, false, 1, false⟩, ⟨2, 7, "Q2", 3, false, 2, false⟩], 3⟩).polls,
      r'.id = 2 ∧ r'.deleted = true) := by
  refine ⟨?_, ?_, ?_⟩
  · exact (c5_soft_delete_children.1 7 _ _).2.1 ⟨by decide, by decide⟩
      ⟨2, 7, "B", 1, false⟩ (List.mem_cons_of_mem _ (List.mem_cons_self _ _)) rfl (by decide)
  · exact (c5_soft_delete_children.1 7 _ _).2.2
      ⟨1, 7, "A", 0, false⟩ (List.mem_cons_self _ _) rfl (by decide)
  · exact (c5_soft_delete_children.2.2 7 _ _).2.1 ⟨by decide, by decide⟩
      ⟨2, 7, "Q2", 3, false, 2, false⟩ (List.mem_cons_of_mem _ (List.mem_cons_self _ _))
      rfl (by decide)

/-! ### RootSectionImageSerializer.create -/

/-- `RootSectionImageSerializer.create`: `super().create` inserts the image
row (with the submitted/default ordering), then `section.images.all()` is
queried — at that point the queryset already contains the just-created row,
so `exists()` holds and the ordering is set to `Max('ordering') + 1` and
saved with a second write. Per the spec, soft-deleted images are excluded
from read queries, hence the `deleted = false` filter. -/
def rootImageCreate (sid : Nat) (title : String) (ordering : Int) (st : ImageStore) :
    ImageStore × ImageRow :=
  let img : ImageRow := ⟨st.nextId, sid, title, ordering, false⟩
  let st1 : ImageStore := ⟨st.images ++ [img], st.nextId + 1⟩
  let siblings := st1.images.filter (fun r => r.sectionId == sid && r.deleted == false)
  match (siblings.map (fun r => r.ordering)).max? with
  | none => (st1, img)
  | some m =>
    let img2 : ImageRow := { img with ordering := m + 1 }
    ({ st1 with images := st1.images.map (fun r => if r.id = img.id then img2 else r) }, img2)

lemma foldl_max_init (l : List Int) : ∀ x y : Int, l.foldl max (max x y) = max x (l.foldl max y) := by
  induction l with
  | nil => intro x y; rfl
  | cons b bs ih =>
    intro x y
    simp only [List.foldl_cons]
    rw [max_assoc, ih]

lemma max?_append_singleton (l : List Int) (a : Int) :
    (l ++ [a]).max? = some (l.foldl max a) := by
  cases l with
  | nil => rfl
  | cons b bs =>
    show (b :: (bs ++ [a])).max? = some ((b :: bs).foldl max a)
    rw [List.max?_cons', List.foldl_append]
    simp only [List.foldl_cons, List.foldl_nil]
    rw [max_comm, foldl_max_init bs a b]

lemma foldl_max_eq_of_max? {l : List Int} {m : Int} (h : l.max? = some m) {ord : Int}
    (hle : ord ≤ m) : l.foldl max ord = m := by
  cases l with
  | nil => cases h
  | cons b bs =>
    rw [List.max?_cons'] at h
    obtain rfl := Option.some.inj h
    show bs.foldl max (max ord b) = bs.foldl max b
    rw [foldl_max_init bs ord b]
    exact max_eq_right hle

/-- C3 counterexample: a section with zero pre-existing images; the root
endpoint creates an image with submitted ordering 0, and the persisted
ordering is 1 — the ordering adjustment ran even though no other image
existed, because the queryset contains the just-created image. -/
theorem c3_counterexample :
    (rootImageCreate 1 "img" 0 ⟨[], 0⟩).2.ordering = 1 ∧
      ¬((rootImageCreate 1 "img" 0 ⟨[], 0⟩).2.ordering = 0) := by
  constructor
  · rfl
  · intro h
    cases h

/-- C3 as amended: the ordering adjustment happens on every root creation
(the queryset includes the just-created image, so it is never empty); the
persisted ordering is `max(pre-existing live sibling orderings ∪ {submitted
ordering}) + 1`, the adjusted row is what is stored; and whenever the
submitted ordering is at most the pre-existing maximum — in particular for
the default 0 against positive orderings — this equals
`max(pre-existing) + 1`, as the claim stated. -/
theorem c3_root_image_ordering (sid : Nat) (title : String) (ordering : Int)
    (st : ImageStore) :
    ((rootImageCreate sid title ordering st).2.ordering
        = ((st.images.filter (fun r => r.sectionId == sid && r.deleted == false)).map
            (fun r => r.ordering)).foldl max ordering + 1)
  ∧ (∀ m, ((st.images.filter (fun r => r.sectionId == sid && r.deleted == false)).map
        (fun r => r.ordering)).max? = some m → ordering ≤ m →
      (rootImageCreate sid title ordering st).2.ordering = m + 1) := by
  have hfilter : (st.images ++
        [(⟨st.nextId, sid, title, ordering, false⟩ : ImageRow)]).filter
          (fun r => r.sectionId == sid && r.deleted == false)
      = st.images.filter (fun r => r.sectionId == sid && r.deleted == false)
        ++ [⟨st.nextId, sid, title, ordering, false⟩] := by
    rw [List.filter_append]
    simp
  have hmax : (((st.images ++
        [(⟨st.nextId, sid, title, ordering, false⟩ : ImageRow)]).filter
          (fun r => r.sectionId == sid && r.deleted == false)).map (fun r => r.ordering)).max?
      = some (((st.images.filter (fun r => r.sectionId == sid && r.deleted == false)).map
          (fun r => r.ordering)).foldl max ordering) := by
    rw [hfilter, List.map_append]
    exact max?_append_singleton _ _
  constructor
  · simp only [rootImageCreate]
    rw [hmax]
  · intro m hm hle
    have hfold : ((st.images.filter (fun r => r.sectionId == sid && r.deleted == false)).map
        (fun r => r.ordering)).foldl max ordering = m :=
      foldl_max_eq_of_max? hm hle
    simp only [rootImageCreate]
    rw [hmax, hfold]

/-- Witness for C3 (amended): pre-existing live images with orderings
`{1, 2, 5}` and a default submitted ordering 0 yield persisted ordering 6. -/
theorem c3_root_image_ordering_witness :
    (rootImageCreate 9 "new" 0
        ⟨[⟨1, 9, "a", 1, false⟩, ⟨2, 9, "b", 2, false⟩, ⟨3, 9, "c", 5, false⟩], 4⟩).2.ordering
      = 6 := by
  have h := (c3_root_image_ordering 9 "new" 0
      ⟨[⟨1, 9, "a", 1, false⟩, ⟨2, 9, "b", 2, false⟩, ⟨3, 9, "c", 5, false⟩], 4⟩).2
      5 rfl (by decide)
  exact h.trans (by norm_num)

/-! ### transaction.atomic create/update orchestration -/

/-- The relational store touched by a section create/update request. -/
structure Store where
  images : ImageStore
  options : OptionStore

/-- Django `transaction.atomic()`: run the body; on success keep its final
state, on an exception roll the state back to the state at entry and
re-raise. -/
def atomically {α : Type} (body : Store → Except String (Store × α)) (s : Store) :
    Store × Except String α :=
  match body s with
  | .ok (s', a) => (s', .ok a)
  | .error e => (s, .error e)

/-- `SectionCreateUpdateSerializer.create` under `@transaction.atomic()`:
persist the section's own scalar fields (`super().create`, yielding the
section id), then `_handle_images`, then `_handle_questions`, all in one
transaction. The three steps are the request's store writes; each may raise. -/
def sectionCreate (persistScalars : Store → Except String (Store × Nat))
    (handleImgs : Nat → Store → Except String Store)
    (handleQs : Nat → Store → Except String Store) (s : Store) :
    Store × Except String Nat :=
  atomically (fun s0 => do
    let (s1, secId) ← persistScalars s0
    let s2 ← handleImgs secId s1
    let s3 ← handleQs secId s2
    return (s3, secId)) s

/-- `SectionCreateUpdateSerializer.update` under `@transaction.atomic()`:
identical orchestration against an existing section `instId`. -/
def sectionUpdate (instId : Nat) (persistScalars : Nat → Store → Except String Store)
    (handleImgs : Nat → Store → Except String Store)
    (handleQs : Nat → Store → Except String Store) (s : Store) :
    Store × Except String Nat :=
  atomically (fun s0 => do
    let s1 ← persistScalars instId s0
    let s2 ← handleImgs instId s1
    let s3 ← handleQs instId s2
    return (s3, instId)) s

lemma atomically_error {α : Type} {body : Store → Except String (Store × α)} {s : Store}
    {e : String} (h : (atomically body s).2 = .error e) : (atomically body s).1 = s := by
  unfold atomically at h ⊢
  cases hb : body s with
  | error e0 => rfl
  | ok p =>
    rw [hb] at h
    obtain ⟨s', a⟩ := p
    exact absurd h (by simp)

lemma atomically_ok {α : Type} {body : Store → Except String (Store × α)} {s : Store}
    {a : α} (h : (atomically body s).2 = .ok a) :
    body s = .ok ((atomically body s).1, a) := by
  unfold atomically at h ⊢
  cases hb : body s with
  | error e0 =>
    rw [hb] at h
    exact absurd h (by simp)
  | ok p =>
    rw [hb] at h
    obtain ⟨s', a'⟩ := p
    obtain rfl := Except.ok.inj h
    rfl

/-- C1. Create and update are one atomic transaction: when any of the three
steps raises, the stored state after the request equals the stored state
before it (no partial persistence); when the request succeeds, the final
state is exactly the sequential composition scalar-fields → images →
questions. -/
theorem c1_transactional_atomicity :
    (∀ (p : Store → Except String (Store × Nat))
        (hi hq : Nat → Store → Except String Store) (s : Store),
       (∀ e, (sectionCreate p hi hq s).2 = .error e → (sectionCreate p hi hq s).1 = s)
     ∧ (∀ secId, (sectionCreate p hi hq s).2 = .ok secId →
         ∃ s1 s2, p s = .ok (s1, secId) ∧ hi secId s1 = .ok s2 ∧
           hq secId s2 = .ok (sectionCreate p hi hq s).1))
  ∧ (∀ (instId : Nat) (p hi hq : Nat → Store → Except String Store) (s : Store),
       (∀ e, (sectionUpdate instId p hi hq s).2 = .error e →
         (sectionUpdate instId p hi hq s).1 = s)
     ∧ (∀ secId, (sectionUpdate instId p hi hq s).2 = .ok secId →
         secId = instId ∧ ∃ s1 s2, p instId s = .ok s1 ∧ hi instId s1 = .ok s2 ∧
           hq instId s2 = .ok (sectionUpdate instId p hi hq s).1)) := by
  constructor
  · intro p hi hq s
    constructor
    · intro e h
      exact atomically_error h
    · intro secId h
      have hbody := atomically_ok h
      obtain ⟨a, hp, h2⟩ := bind_ok_inv hbody
      obtain ⟨s2, hhi, h3⟩ := bind_ok_inv h2
      obtain ⟨s3, hhq, h4⟩ := bind_ok_inv h3
      obtain ⟨rfl, rfl⟩ := Prod.mk.injEq .. ▸ (Except.ok.inj h4)
      exact ⟨a.1, s2, by rw [← hp], hhi, hhq⟩
  · intro instId p hi hq s
    constructor
    · intro e h
      exact atomically_error h
    · intro secId h
      have hbody := atomically_ok h
      obtain ⟨s1, hp, h2⟩ := bind_ok_inv hbody
      obtain ⟨s2, hhi, h3⟩ := bind_ok_inv h2
      obtain ⟨s3, hhq, h4⟩ := bind_ok_inv h3
      obtain ⟨rfl, rfl⟩ := Prod.mk.injEq .. ▸ (Except.ok.inj h4)
      exact ⟨rfl, s1, s2, hp, hhi, hhq⟩

/-- Witness for C1: a request whose questions step raises leaves the initial
(empty) store untouched. -/
theorem c1_transactional_atomicity_witness :
    (sectionCreate (fun s => .ok (s, 1)) (fun _ s => .ok s)
        (fun _ _ => .error "invalid option id") ⟨⟨[], 0⟩, ⟨[], 0⟩⟩).1
      = ⟨⟨[], 0⟩, ⟨[], 0⟩⟩ :=
  (c1_transactional_atomicity.1 (fun s => .ok (s, 1)) (fun _ s => .ok s)
      (fun _ _ => .error "invalid option id") ⟨⟨[], 0⟩, ⟨[], 0⟩⟩).1
    "invalid option id" rfl

/-! ### kk models: comment-count recache hooks -/

structure CommentRec where
  id : Nat
  deleted : Bool

/-- A `Scenario` together with its comment set (the owner targeted by the
`post_save` hook of `ScenarioComment`). -/
structure ScenarioState where
  n_comments : Nat
  comments : List CommentRec

/-- Live comments of the owner. -/
def liveComments (l : List CommentRec) : List CommentRec :=
  l.filter (fun c => c.deleted == false)

/-- Modelled from the spec: `recache_n_comments` (defined outside this
excerpt) recomputes the owner's cached comment count from the live comment
set. -/
def recacheNComments (st : ScenarioState) : ScenarioState :=
  { st with n_comments := (liveComments st.comments).length }

/-- Saving a `ScenarioComment` (create when the id is new, update when it
exists), followed by the `post_save`-connected `scenario_n_comments_bump`,
which calls `instance.scenario.recache_n_comments()`. -/
def saveScenarioComment (st : ScenarioState) (c : CommentRec) : ScenarioState :=
  let st1 :=
    if st.comments.any (fun x => x.id == c.id) then
      { st with comments := st.comments.map (fun x => if x.id = c.id then c else x) }
    else
      { st with comments := st.comments ++ [c] }
  recacheNComments st1

/-- A legacy `Section` together with its comment set; `SectionComment` is
decorated with `@recache_on_save`, the same pattern targeting
`instance.section`. -/
structure KkSectionState where
  n_comments : Nat
  comments : List CommentRec

/-- Modelled from the spec: the owning Section's comment-count recache
triggered by `recache_on_save` (defined outside this excerpt). -/
def kkSectionRecacheNComments (st : KkSectionState) : KkSectionState :=
  { st with n_comments := (liveComments st.comments).length }

/-- Saving a legacy `SectionComment` followed by the `recache_on_save`
hook. -/
def saveKkSectionComment (st : KkSectionState) (c : CommentRec) : KkSectionState :=
  let st1 :=
    if st.comments.any (fun x => x.id == c.id) then
      { st with comments := st.comments.map (fun x => if x.id = c.id then c else x) }
    else
      { st with comments := st.comments ++ [c] }
  kkSectionRecacheNComments st1

/-- C9. After every `ScenarioComment` save (create or update) the owning
Scenario's cached `n_comments` equals the live comment count, and likewise
for the legacy `SectionComment` and its owning Section — with no explicit
recount by the caller; moreover a creation against a cache of 2 with two
live stored comments yields a cache of 3. -/
theorem c9_comment_recache_on_save :
    (∀ (st : ScenarioState) (c : CommentRec),
        (saveScenarioComment st c).n_comments
          = (liveComments (saveScenarioComment st c).comments).length)
  ∧ (∀ (st : KkSectionState) (c : CommentRec),
        (saveKkSectionComment st c).n_comments
          = (liveComments (saveKkSectionComment st c).comments).length)
  ∧ (saveScenarioComment ⟨2, [⟨1, false⟩, ⟨2, false⟩]⟩ ⟨3, false⟩).n_comments = 3 := by
  refine ⟨fun st c => rfl, fun st c => rfl, rfl⟩

end Kerrokantasi
